import Mathlib

/-!
Shallow embedding of the retrieval / rank-fusion pipeline of
eugeneyan/obsidian-copilot (src/app.py, src/prep/build_semantic_index.py,
src/prep/build_vault_dict.py), together with theorems settling the frozen
claims about it.

Conventions of the embedding:
* Python dicts become association lists or `String → Option _` maps; a
  failed dict lookup (Python `KeyError`) becomes `Except.error key`.
* The tiktoken tokenizer and the transformer embedder are external opaque
  collaborators; they are parameters (`numTokens : String → Nat`,
  `embed : List String → List E`).
* pandas `sort_values('score', ascending=False)` after `groupby('id')`
  (which pre-sorts ids ascending) is modelled as a deterministic sort by
  descending score with ties broken by ascending id; the source does not
  fix the tie order, none of the proved statements depends on it.
-/

/-- A chunk record of the vault dictionary built by build_vault_dict.py:
`{title, type, path, chunk}`. -/
structure VaultEntry where
  title : String
  type : String
  path : String
  chunk : String
deriving DecidableEq, Repr

/-- A retrieval hit `{'id': ..., 'rank': ...}` as produced by
`parse_os_response` / `parse_semantic_response` in app.py. -/
structure Hit where
  id : String
  rank : Nat
deriving DecidableEq, Repr

/-- One row of the `ranked` dataframe of `get_chunks_from_hits`:
a chunk id with its combined fusion score. -/
structure ScoredChunk where
  id : String
  score : Int
deriving DecidableEq, Repr

/-- One entry of the context list returned by `get_chunks_from_hits`:
`{'title': ..., 'chunk': ...}`. -/
structure ContextChunk where
  title : String
  chunk : String
deriving DecidableEq, Repr

/-- The combined score `groupby('id').agg({'score': 'sum'})` assigns to a
chunk id: the sum of `10 - rank` over the hits bearing that id
(app.py line 122 `df['score'] = df['rank'].apply(lambda x: 10 - x)`
and line 124). -/
def scoreOfId (hits : List Hit) (cid : String) : Int :=
  (hits.filter (fun h => h.id == cid)).foldl
    (fun acc h => acc + ((10 : Int) - (h.rank : Int))) 0

/-- Ordering of the `ranked` dataframe: descending combined score, ties
broken by ascending id (deterministic stand-in for the unspecified pandas
tie order after the id-ascending groupby). -/
def scoreRel (a b : ScoredChunk) : Prop :=
  b.score < a.score ∨ (a.score = b.score ∧ a.id ≤ b.id)

instance : DecidableRel scoreRel := fun a b =>
  inferInstanceAs (Decidable (b.score < a.score ∨ (a.score = b.score ∧ a.id ≤ b.id)))

instance : IsTotal ScoredChunk scoreRel := by
  constructor
  intro a b
  rcases lt_trichotomy a.score b.score with h | h | h
  · exact Or.inr (Or.inl h)
  · rcases le_total a.id b.id with h2 | h2
    · exact Or.inl (Or.inr ⟨h, h2⟩)
    · exact Or.inr (Or.inr ⟨h.symm, h2⟩)
  · exact Or.inl (Or.inl h)

instance : IsTrans ScoredChunk scoreRel := by
  constructor
  intro a b c hab hbc
  rcases hab with h1 | ⟨h1, h1i⟩ <;> rcases hbc with h2 | ⟨h2, h2i⟩
  · exact Or.inl (lt_trans h2 h1)
  · exact Or.inl (h2 ▸ h1)
  · exact Or.inl (h1 ▸ h2)
  · exact Or.inr ⟨h1.trans h2, le_trans h1i h2i⟩

/-- The deduplicated, score-ranked candidate list of
`get_chunks_from_hits` (app.py line 124):
`df.groupby('id').agg({'score': 'sum'}).sort_values('score', ascending=False)`.
Distinct ids of the hits, each with its summed score, sorted by
descending score. -/
def rankedIds (hits : List Hit) : List ScoredChunk :=
  List.insertionSort scoreRel
    (((hits.map Hit.id).dedup).map (fun cid => ⟨cid, scoreOfId hits cid⟩))

/-- Token count charged to a candidate: `num_tokens_from_string(vault[id]['chunk'])`
under the opaque tokenizer `numTokens` (0 when the id is absent; the code
would have raised before using it). -/
def tokensOf (vault : String → Option VaultEntry) (numTokens : String → Nat)
    (sc : ScoredChunk) : Nat :=
  match vault sc.id with
  | some e => numTokens e.chunk
  | none => 0

/-- The `{title, chunk}` record a candidate contributes to the output. -/
def ctxOf (vault : String → Option VaultEntry) (sc : ScoredChunk) : ContextChunk :=
  match vault sc.id with
  | some e => ⟨e.title, e.chunk⟩
  | none => ⟨"", ""⟩

/-- The greedy token-bounded selection loop of `get_chunks_from_hits`
(app.py lines 130-139): look the id up in the vault (raising `KeyError id`
when absent), add its token count, break when the running total exceeds
`max_tokens`, otherwise append `{title, chunk}`. An error anywhere
discards all accumulated output, like the Python exception. -/
def assemble (vault : String → Option VaultEntry) (numTokens : String → Nat) :
    List ScoredChunk → Nat → Nat → Except String (List ContextChunk)
  | [], _, _ => .ok []
  | sc :: rest, tcount, mtok =>
    match vault sc.id with
    | none => .error sc.id
    | some e =>
      let tc := tcount + numTokens e.chunk
      if mtok < tc then .ok []
      else
        match assemble vault numTokens rest tc mtok with
        | .error s => .error s
        | .ok tail => .ok (⟨e.title, e.chunk⟩ :: tail)

/-- Embedding of `get_chunks_from_hits(hits, model_name, max_tokens)`
(app.py lines 108-141). On an empty hit list `pd.DataFrame(hits)` has no
`rank` column, so line 122 raises `KeyError: 'rank'`; otherwise the ranked
candidates are assembled greedily under the token budget. -/
def get_chunks_from_hits (vault : String → Option VaultEntry)
    (numTokens : String → Nat) (hits : List Hit) (max_tokens : Nat) :
    Except String (List ContextChunk) :=
  if hits = [] then .error "rank"
  else assemble vault numTokens (rankedIds hits) 0 max_tokens

/-- Length of the longest prefix of a token-count list whose sum fits in
the budget; the count of chunks the greedy loop keeps. -/
def fitCount : List Nat → Nat → Nat
  | [], _ => 0
  | t :: rest, budget => if budget < t then 0 else 1 + fitCount rest (budget - t)

/-- Ordering used to model `np.argsort(cos_sims)`: ascending similarity,
ties broken by ascending row index (numpy's quicksort does not guarantee a
tie order; no proved statement depends on it). -/
def simRel (sims : List Int) (i j : Nat) : Prop :=
  sims.getD i 0 < sims.getD j 0 ∨ (sims.getD i 0 = sims.getD j 0 ∧ i ≤ j)

instance (sims : List Int) : DecidableRel (simRel sims) := fun i j =>
  inferInstanceAs
    (Decidable (sims.getD i 0 < sims.getD j 0 ∨ (sims.getD i 0 = sims.getD j 0 ∧ i ≤ j)))

instance (sims : List Int) : IsTotal Nat (simRel sims) := by
  constructor
  intro i j
  rcases lt_trichotomy (sims.getD i 0) (sims.getD j 0) with h | h | h
  · exact Or.inl (Or.inl h)
  · rcases Nat.le_total i j with h2 | h2
    · exact Or.inl (Or.inr ⟨h, h2⟩)
    · exact Or.inr (Or.inr ⟨h.symm, h2⟩)
  · exact Or.inr (Or.inl h)

instance (sims : List Int) : IsTrans Nat (simRel sims) := by
  constructor
  intro i j k hij hjk
  rcases hij with h1 | ⟨h1, h1i⟩ <;> rcases hjk with h2 | ⟨h2, h2i⟩
  · exact Or.inl (lt_trans h1 h2)
  · exact Or.inl (h2 ▸ h1)
  · exact Or.inl (h1 ▸ h2)
  · exact Or.inr ⟨h1.trans h2, Nat.le_trans h1i h2i⟩

/-- Row indices of the similarity vector sorted by ascending similarity:
`np.argsort(cos_sims)` over `cos_sims = doc_embeddings_array @ query`
(build_semantic_index.py line 160). -/
def argsortIdx (sims : List Int) : List Nat :=
  List.insertionSort (simRel sims) (List.range sims.length)

/-- Python slice `a[-n:]`: the last `n` elements — except that for `n = 0`
the slice `a[-0:]` is `a[0:]`, the whole array. -/
def lastN (l : List α) (n : Nat) : List α :=
  if n = 0 then l else l.drop (l.length - n)

/-- Embedding of `query_semantic` (build_semantic_index.py lines 143-162)
after the opaque encoder produced the similarity vector `cos_sims`:
`np.argsort(cos_sims)[-n_results:][::-1]`. -/
def query_semantic (sims : List Int) (n_results : Nat) : List Nat :=
  (lastN (argsortIdx sims) n_results).reverse

/-- The vault entries of type `chunk` — the ones both index builders embed
(they `continue` past entries of type `doc`). The vault dict is modelled as
an association list in Python dict insertion order. -/
def chunkEntries (vaultL : List (String × VaultEntry)) : List (String × VaultEntry) :=
  vaultL.filter (fun p => !(p.2.type == "doc"))

/-- The chunk ids of the vault, in iteration order. -/
def chunkKeys (vaultL : List (String × VaultEntry)) : List String :=
  (chunkEntries vaultL).map Prod.fst

/-- The loop of `build_embedding_index` (build_semantic_index.py lines
72-82) with the running `embedding_idx` counter made explicit. -/
def build_embedding_index_from : Nat → List (String × VaultEntry) → List (Nat × String)
  | _, [] => []
  | k, (cid, d) :: rest =>
    if d.type == "doc" then build_embedding_index_from k rest
    else (k, cid) :: build_embedding_index_from (k + 1) rest

/-- Embedding of `build_embedding_index(vault)`: maps embedding row index
to chunk id. -/
def build_embedding_index (vaultL : List (String × VaultEntry)) : List (Nat × String) :=
  build_embedding_index_from 0 vaultL

/-- Dict lookup `embedding_index[idx]` on the association list. -/
def lookupIdx (eidx : List (Nat × String)) (i : Nat) : Option String :=
  (eidx.find? (fun p => p.1 == i)).map Prod.snd

/-- The `enumerate` loop of `parse_semantic_response` (app.py lines 85-90)
with the rank counter explicit; a failed `embedding_index[idx]` lookup is
the Python `KeyError idx`. -/
def parse_semantic_from (eidx : List (Nat × String)) : List Nat → Nat → Except Nat (List Hit)
  | [], _ => .ok []
  | i :: rest, rank =>
    match lookupIdx eidx i with
    | none => .error i
    | some cid =>
      match parse_semantic_from eidx rest (rank + 1) with
      | .error e => .error e
      | .ok hits => .ok (⟨cid, rank⟩ :: hits)

/-- Embedding of `parse_semantic_response(indices, embedding_index)`. -/
def parse_semantic_response (indices : List Nat) (eidx : List (Nat × String)) :
    Except Nat (List Hit) :=
  parse_semantic_from eidx indices 0

/-- Python `line.startswith(p)`, computed structurally on the character
list (the built-in `String.startsWith` recurses on byte positions and does
not reduce in the kernel). -/
def startsWithStr (s p : String) : Bool :=
  p.data.isPrefixOf s.data

/-- Substring occurrence on character lists, structurally. -/
def containsSeq (sub : List Char) : List Char → Bool
  | [] => sub.isEmpty
  | c :: rest => sub.isPrefixOf (c :: rest) || containsSeq sub rest

/-- Python `sub in line` (substring containment). -/
def containsStr (s sub : String) : Bool :=
  containsSeq sub.data s.data

/-- Python `str.split()` with no argument: split on runs of whitespace
(empty groups are produced at each whitespace character and filtered out by
the caller). -/
def wsTokens (cs : List Char) : List (List Char) :=
  cs.foldr
    (fun c acc =>
      if c.isWhitespace then [] :: acc
      else
        match acc with
        | [] => [[c]]
        | g :: gs => (c :: g) :: gs) []

/-- The text preprocessing of `build_embedding_array` (build_semantic_index.py
line 113): `'passage: ' + ' '.join(doc['chunk'].split())`. -/
def processText (s : String) : String :=
  "passage: " ++ String.intercalate " "
    (((wsTokens s.data).filter (fun t => !t.isEmpty)).map String.mk)

/-- The batching loop of `build_embedding_array` (build_semantic_index.py
lines 98-140): accumulate processed chunk texts, flush a batch through the
opaque embedder every `bs` chunks, flush the remainder at the end, and
concatenate all embedding rows in order. `batch` and `nb` are the running
`chunk_batch` and `chunks_batched`. -/
def build_embedding_array_from {E : Type} (embed : List String → List E) (bs : Nat) :
    List (String × VaultEntry) → List String → Nat → List E
  | [], batch, nb => if 0 < nb then embed batch else []
  | (_, d) :: rest, batch, nb =>
    if d.type == "doc" then build_embedding_array_from embed bs rest batch nb
    else
      let batch2 := batch ++ [processText d.chunk]
      if (nb + 1) % bs == 0 then
        embed batch2 ++ build_embedding_array_from embed bs rest [] 0
      else build_embedding_array_from embed bs rest batch2 (nb + 1)

/-- Embedding of `build_embedding_array(vault, tokenizer, model, batch_size)`
with the transformer encoder abstracted into `embed`. -/
def build_embedding_array {E : Type} (vaultL : List (String × VaultEntry))
    (embed : List String → List E) (bs : Nat) : List E :=
  build_embedding_array_from embed bs vaultL [] 0

/-- Loop state of `chunk_doc_to_dict` (build_vault_dict.py lines 58-61):
the chunks kept so far, the chunk being accumulated, and the last section
header seen. -/
structure ChunkState where
  chunks : List (List String)
  current : List String
  header : Option String
deriving DecidableEq, Repr

/-- One iteration of the line loop of `chunk_doc_to_dict` (build_vault_dict.py
lines 63-85): skip blank/tag/source/image lines, remember section headers,
flush the accumulated chunk at a top-level bullet (keeping it only when it
has at least `min_chunk_lines` lines, and reseeding with the current
header), then append the line to the accumulator. -/
def chunkStep (minChunkLines : Nat) (st : ChunkState) (line : String) : ChunkState :=
  if startsWithStr line "\n" then st
  else if startsWithStr line "- tag" then st
  else if startsWithStr line "- source" then st
  else if containsStr line "![](assets" then st
  else
    let header := if startsWithStr line "#" then some line else st.header
    let st1 :=
      if startsWithStr line "- " && !st.current.isEmpty then
        { chunks := if minChunkLines ≤ st.current.length then st.chunks ++ [st.current]
            else st.chunks
          current := match header with | some h => [h] | none => []
          header := header }
      else { st with header := header }
    { st1 with current := st1.current ++ [line] }

/-- Embedding of `chunk_doc_to_dict(lines, min_chunk_lines)` (build_vault_dict.py
lines 47-92). The returned dict has consecutive integer keys, modelled as a
list in key order. Note the final flush (lines 88-90) keeps the last chunk
only when it has STRICTLY more than `min_chunk_lines` lines, unlike the
in-loop flush which keeps chunks with at least that many. -/
def chunk_doc_to_dict (lines : List String) (minChunkLines : Nat) : List (List String) :=
  let st := lines.foldl (chunkStep minChunkLines) ⟨[], [], none⟩
  if st.current ≠ [] ∧ minChunkLines < st.current.length then st.chunks ++ [st.current]
  else st.chunks

/-- The per-file filter of `get_file_paths` (build_vault_dict.py line 40):
a file is kept when it has strictly more than `min_lines` lines. -/
def get_file_paths_keep (lines : List String) (minLines : Nat) : Bool :=
  minLines < lines.length

/-- Embedding of `create_vault_dict(vault_path, paths)` (build_vault_dict.py
lines 105-128) with file contents supplied as `(filename, lines)` pairs: a
file contributes a whole-document record plus one record per chunk — but
only when `chunk_doc_to_dict` kept at least one chunk ("Only add docs with
chunks to dict"). -/
def create_vault_dict : List (String × List String) → List (String × VaultEntry)
  | [] => []
  | (fn, lines) :: rest =>
    if chunk_doc_to_dict lines 3 = [] then create_vault_dict rest
    else
      ((fn, (⟨fn, "doc", fn, String.join lines⟩ : VaultEntry)) ::
        (chunk_doc_to_dict lines 3).enum.map (fun p =>
          (fn ++ "-" ++ toString p.1, (⟨fn, "chunk", fn, String.join p.2⟩ : VaultEntry)))) ++
      create_vault_dict rest

/-- Example vault for the concrete witnesses: chunks A and B cost 50 tokens
each, C costs 5000 (the scenario of the spec, section 8). -/
def exVault : String → Option VaultEntry := fun cid =>
  if cid = "A" then some ⟨"A.md", "chunk", "A.md", "ta"⟩
  else if cid = "B" then some ⟨"B.md", "chunk", "B.md", "tb"⟩
  else if cid = "C" then some ⟨"C.md", "chunk", "C.md", "tc"⟩
  else none

/-- Concrete stand-in for the tiktoken token counter. -/
def exTok : String → Nat := fun s => if s = "ta" then 50 else if s = "tb" then 50 else 5000

/-- Hit lists of the spec scenario: lexical [A, C], semantic [B, A]. -/
def exHits : List Hit := [⟨"A", 0⟩, ⟨"C", 1⟩, ⟨"B", 0⟩, ⟨"A", 1⟩]

theorem fitCount_le_length (tok : List Nat) (b : Nat) : fitCount tok b ≤ tok.length := by
  induction tok generalizing b with
  | nil => simp [fitCount]
  | cons t rest ih =>
    simp only [fitCount, List.length_cons]
    split
    · omega
    · have := ih (b - t)
      omega

theorem sum_take_fitCount (tok : List Nat) (b : Nat) :
    (tok.take (fitCount tok b)).sum ≤ b := by
  induction tok generalizing b with
  | nil => simp [fitCount]
  | cons t rest ih =>
    simp only [fitCount]
    split
    · simp
    · have := ih (b - t)
      simp only [Nat.one_add, List.take_succ_cons, List.sum_cons]
      omega

theorem le_fitCount (tok : List Nat) (b : Nat) (j : Nat) (hj : j ≤ tok.length)
    (hsum : (tok.take j).sum ≤ b) : j ≤ fitCount tok b := by
  induction tok generalizing b j with
  | nil => simp only [List.length_nil] at hj; simp only [fitCount]; omega
  | cons t rest ih =>
    cases j with
    | zero => omega
    | succ j =>
      simp only [List.take_succ_cons, List.sum_cons] at hsum
      simp only [List.length_cons] at hj
      have hle : ¬ b < t := by omega
      simp only [fitCount, hle, if_false]
      have := ih (b - t) j (by omega) (by omega)
      omega

/-- Characterization of the greedy selection loop: when every candidate id
resolves in the vault and the running total has not yet exceeded the
budget, the loop returns exactly the longest-fitting prefix of the
candidate list. -/
theorem assemble_ok (vault : String → Option VaultEntry) (numTokens : String → Nat)
    (cands : List ScoredChunk) (t m : Nat)
    (h : ∀ sc ∈ cands, vault sc.id ≠ none) (ht : t ≤ m) :
    assemble vault numTokens cands t m
      = .ok ((cands.take
          (fitCount (cands.map (tokensOf vault numTokens)) (m - t))).map (ctxOf vault)) := by
  induction cands generalizing t with
  | nil => simp [assemble]
  | cons sc rest ih =>
    obtain ⟨e, he⟩ : ∃ e, vault sc.id = some e := by
      cases hv : vault sc.id with
      | none => exact absurd hv (h sc (List.mem_cons_self sc rest))
      | some e => exact ⟨e, rfl⟩
    have htok : tokensOf vault numTokens sc = numTokens e.chunk := by
      simp [tokensOf, he]
    simp only [assemble, he, List.map_cons, htok, fitCount]
    by_cases hover : m < t + numTokens e.chunk
    · have : m - t < numTokens e.chunk := by omega
      simp [hover, this]
    · have hfits : ¬ m - t < numTokens e.chunk := by omega
      have hrec := ih (t + numTokens e.chunk)
        (fun x hx => h x (List.mem_cons_of_mem sc hx)) (by omega)
      have hsub : m - t - numTokens e.chunk = m - (t + numTokens e.chunk) := by omega
      simp only [hover, if_false, hfits, hrec, hsub]
      have hctx : ctxOf vault sc = ⟨e.title, e.chunk⟩ := by simp [ctxOf, he]
      simp [List.take_succ_cons, hctx, Nat.add_comm 1]

/-- Members of the ranked candidate list come from the hit list. -/
theorem mem_rankedIds (hits : List Hit) (sc : ScoredChunk) (hmem : sc ∈ rankedIds hits) :
    ∃ h ∈ hits, Hit.id h = sc.id := by
  unfold rankedIds at hmem
  rw [(List.perm_insertionSort scoreRel _).mem_iff] at hmem
  obtain ⟨cid, hcid, rfl⟩ := List.mem_map.mp hmem
  rw [List.mem_dedup] at hcid
  obtain ⟨h, hh, rfl⟩ := List.mem_map.mp hcid
  exact ⟨h, hh, rfl⟩

/-- C1. For every non-empty hit list, every vault resolving all hit ids and
every token budget, `get_chunks_from_hits` returns (without error) exactly
the longest prefix of the score-descending deduplicated candidate list
whose cumulative token count stays within `max_tokens`; in particular the
first overflowing candidate and everything after it are wholly excluded,
and if the first candidate already overflows the result is the empty
list. -/
theorem get_chunks_from_hits_prefix (vault : String → Option VaultEntry)
    (numTokens : String → Nat) (hits : List Hit) (max_tokens : Nat)
    (hne : hits ≠ []) (hv : ∀ h ∈ hits, vault h.id ≠ none) :
    ∃ k,
      get_chunks_from_hits vault numTokens hits max_tokens
        = .ok (((rankedIds hits).take k).map (ctxOf vault)) ∧
      (((rankedIds hits).take k).map (tokensOf vault numTokens)).sum ≤ max_tokens ∧
      ∀ j, j ≤ (rankedIds hits).length →
        (((rankedIds hits).take j).map (tokensOf vault numTokens)).sum ≤ max_tokens →
        j ≤ k := by
  refine ⟨fitCount ((rankedIds hits).map (tokensOf vault numTokens)) max_tokens, ?_, ?_, ?_⟩
  · unfold get_chunks_from_hits
    rw [if_neg hne]
    have hcand : ∀ sc ∈ rankedIds hits, vault sc.id ≠ none := by
      intro sc hsc
      obtain ⟨h, hh, hid⟩ := mem_rankedIds hits sc hsc
      simpa [hid] using hv h hh
    simpa using assemble_ok vault numTokens (rankedIds hits) 0 max_tokens hcand (Nat.zero_le _)
  · rw [List.map_take]
    exact sum_take_fitCount _ _
  · intro j hj hsum
    rw [List.map_take] at hsum
    exact le_fitCount _ _ _ (by simpa using hj) hsum

theorem foldl_add_map (l : List Hit) (g : Hit → Int) (a : Int) :
    l.foldl (fun acc h => acc + g h) a = a + (l.map g).sum := by
  induction l generalizing a with
  | nil => simp
  | cons h t ih => simp [ih (a + g h), add_assoc]

/-- The id components of the ranked candidate list are exactly the
deduplicated hit ids, up to permutation. -/
theorem rankedIds_ids_perm (hits : List Hit) :
    ((rankedIds hits).map ScoredChunk.id).Perm ((hits.map Hit.id).dedup) := by
  have hp := (List.perm_insertionSort scoreRel
    (((hits.map Hit.id).dedup).map (fun cid => (⟨cid, scoreOfId hits cid⟩ : ScoredChunk)))).map
    ScoredChunk.id
  rw [List.map_map] at hp
  simpa [Function.comp_def] using hp

/-- C2. The combined score `get_chunks_from_hits` assigns to a chunk id is
the sum of `10 - rank` over all hits bearing that id, and each distinct
chunk id contributes at most one entry to the ranked candidate list. -/
theorem get_chunks_dedup_scores (hits : List Hit) :
    ((rankedIds hits).map ScoredChunk.id).Nodup ∧
    ∀ sc ∈ rankedIds hits,
      sc.score = ((hits.filter (fun h => h.id == sc.id)).map
        (fun h => (10 : Int) - (h.rank : Int))).sum := by
  constructor
  · exact ((rankedIds_ids_perm hits).nodup_iff).mpr (List.nodup_dedup _)
  · intro sc hsc
    unfold rankedIds at hsc
    rw [(List.perm_insertionSort scoreRel _).mem_iff] at hsc
    obtain ⟨cid, _, rfl⟩ := List.mem_map.mp hsc
    simp only [scoreOfId]
    rw [foldl_add_map, zero_add]

/-- Witness for C2 at the spec's dedup example: chunk X at rank 0 in one
source and rank 2 in the other. -/
theorem get_chunks_dedup_scores_witness :
    ((rankedIds [⟨"X", 0⟩, ⟨"Z", 1⟩, ⟨"X", 2⟩]).map ScoredChunk.id).Nodup ∧
    (⟨"X", scoreOfId [⟨"X", 0⟩, ⟨"Z", 1⟩, ⟨"X", 2⟩] "X"⟩ : ScoredChunk).score
      = (([(⟨"X", 0⟩ : Hit), ⟨"Z", 1⟩, ⟨"X", 2⟩].filter
          (fun h => h.id == "X")).map (fun h => (10 : Int) - (h.rank : Int))).sum ∧
    scoreOfId [⟨"X", 0⟩, ⟨"Z", 1⟩, ⟨"X", 2⟩] "X" = 18 :=
  ⟨(get_chunks_dedup_scores [⟨"X", 0⟩, ⟨"Z", 1⟩, ⟨"X", 2⟩]).1,
   (get_chunks_dedup_scores [⟨"X", 0⟩, ⟨"Z", 1⟩, ⟨"X", 2⟩]).2
     ⟨"X", scoreOfId [⟨"X", 0⟩, ⟨"Z", 1⟩, ⟨"X", 2⟩] "X"⟩ (by decide),
   by decide⟩

/-- C5. Two chunks each hit exactly once, the first at a strictly better
(lower) rank: the first gets a strictly higher combined score and precedes
the second in the ranked candidate list. -/
theorem score_monotone (hits : List Hit) (X Y : String) (rx ry : Nat)
    (hxy : X ≠ Y)
    (hx : hits.filter (fun h => h.id == X) = [⟨X, rx⟩])
    (hy : hits.filter (fun h => h.id == Y) = [⟨Y, ry⟩])
    (hr : rx < ry) :
    scoreOfId hits Y < scoreOfId hits X ∧
    ∃ i j : Fin (rankedIds hits).length,
      i < j ∧ ((rankedIds hits).get i).id = X ∧ ((rankedIds hits).get j).id = Y := by
  have hsx : scoreOfId hits X = 10 - (rx : Int) := by
    simp [scoreOfId, hx]
  have hsy : scoreOfId hits Y = 10 - (ry : Int) := by
    simp [scoreOfId, hy]
  have hscore : scoreOfId hits Y < scoreOfId hits X := by
    rw [hsx, hsy]
    omega
  refine ⟨hscore, ?_⟩
  have hxmem : (⟨X, scoreOfId hits X⟩ : ScoredChunk) ∈ rankedIds hits := by
    unfold rankedIds
    rw [(List.perm_insertionSort scoreRel _).mem_iff]
    refine List.mem_map.mpr ⟨X, ?_, rfl⟩
    rw [List.mem_dedup]
    have : (⟨X, rx⟩ : Hit) ∈ hits.filter (fun h => h.id == X) := by
      rw [hx]; exact List.mem_singleton.mpr rfl
    exact List.mem_map.mpr ⟨⟨X, rx⟩, (List.mem_filter.mp this).1, rfl⟩
  have hymem : (⟨Y, scoreOfId hits Y⟩ : ScoredChunk) ∈ rankedIds hits := by
    unfold rankedIds
    rw [(List.perm_insertionSort scoreRel _).mem_iff]
    refine List.mem_map.mpr ⟨Y, ?_, rfl⟩
    rw [List.mem_dedup]
    have : (⟨Y, ry⟩ : Hit) ∈ hits.filter (fun h => h.id == Y) := by
      rw [hy]; exact List.mem_singleton.mpr rfl
    exact List.mem_map.mpr ⟨⟨Y, ry⟩, (List.mem_filter.mp this).1, rfl⟩
  obtain ⟨i, hgi⟩ := List.get_of_mem hxmem
  obtain ⟨j, hgj⟩ := List.get_of_mem hymem
  have hsorted : List.Sorted scoreRel (rankedIds hits) :=
    List.sorted_insertionSort scoreRel _
  have hpair := List.pairwise_iff_get.mp hsorted
  have hij : i < j := by
    rcases lt_trichotomy i j with h | h | h
    · exact h
    · exfalso
      apply hxy
      have : (⟨X, scoreOfId hits X⟩ : ScoredChunk) = ⟨Y, scoreOfId hits Y⟩ := by
        rw [← hgi, ← hgj, h]
      exact congrArg ScoredChunk.id this
    · exfalso
      have hrel := hpair j i h
      rw [hgi, hgj] at hrel
      rcases hrel with hlt | ⟨heq, _⟩
      · exact absurd hlt (not_lt_of_lt hscore)
      · exact absurd heq (ne_of_lt hscore)
  exact ⟨i, j, hij, by rw [hgi], by rw [hgj]⟩

/-- Witness for C5 at a concrete two-hit list. -/
theorem score_monotone_witness :
    scoreOfId [⟨"a", 0⟩, ⟨"b", 1⟩] "b" < scoreOfId [⟨"a", 0⟩, ⟨"b", 1⟩] "a" ∧
    ∃ i j : Fin (rankedIds [⟨"a", 0⟩, ⟨"b", 1⟩]).length,
      i < j ∧ ((rankedIds [⟨"a", 0⟩, ⟨"b", 1⟩]).get i).id = "a" ∧
      ((rankedIds [⟨"a", 0⟩, ⟨"b", 1⟩]).get j).id = "b" :=
  score_monotone [⟨"a", 0⟩, ⟨"b", 1⟩] "a" "b" 0 1 (by decide) (by decide) (by decide)
    (by decide)

/-- When the candidates before a vault-missing id all fit in the budget,
the greedy loop reaches the missing id and the lookup fails. -/
theorem assemble_error (vault : String → Option VaultEntry) (numTokens : String → Nat)
    (sc : ScoredChunk) (rest : List ScoredChunk) (hmiss : vault sc.id = none) :
    ∀ (pre : List ScoredChunk) (t m : Nat),
      (∀ x ∈ pre, vault x.id ≠ none) →
      t + (pre.map (tokensOf vault numTokens)).sum ≤ m →
      assemble vault numTokens (pre ++ sc :: rest) t m = .error sc.id := by
  intro pre
  induction pre with
  | nil =>
    intro t m _ _
    simp [assemble, hmiss]
  | cons x pre ih =>
    intro t m hres hfit
    obtain ⟨e, he⟩ : ∃ e, vault x.id = some e := by
      cases hv : vault x.id with
      | none => exact absurd hv (hres x (List.mem_cons_self x pre))
      | some e => exact ⟨e, rfl⟩
    have htok : tokensOf vault numTokens x = numTokens e.chunk := by
      simp [tokensOf, he]
    simp only [List.map_cons, List.sum_cons, htok] at hfit
    have hrec := ih (t + numTokens e.chunk) m
      (fun y hy => hres y (List.mem_cons_of_mem x hy)) (by omega)
    have hnot : ¬ m < t + numTokens e.chunk := by omega
    simp [assemble, he, hnot, hrec]

/-- Counterexample to C3 as stated: hit X references an id absent from the
vault, yet no error is raised, because the chunk ranked before it already
overflows the 10-token budget and the loop breaks before looking X up. -/
theorem missing_id_not_always_error :
    (∃ h ∈ [(⟨"A", 0⟩ : Hit), ⟨"X", 1⟩],
      (fun cid => if cid = "A" then some (⟨"A.md", "chunk", "A.md", "big"⟩ : VaultEntry)
        else none) h.id = none) ∧
    get_chunks_from_hits
      (fun cid => if cid = "A" then some (⟨"A.md", "chunk", "A.md", "big"⟩ : VaultEntry)
        else none)
      (fun _ => 11) [⟨"A", 0⟩, ⟨"X", 1⟩] 10 = .ok [] := by
  constructor
  · exact ⟨⟨"X", 1⟩, by decide, by decide⟩
  · rfl

/-- C3 (amended). A hit id absent from the vault raises the lookup error —
with no partial output returned — provided the greedy loop reaches it,
i.e. the candidates ranked strictly before the first missing id together
stay within `max_tokens`; when an earlier chunk overflows the budget first
the loop breaks and the missing id is never looked up. -/
theorem missing_id_reached_error (vault : String → Option VaultEntry)
    (numTokens : String → Nat) (hits : List Hit) (max_tokens : Nat)
    (pre rest : List ScoredChunk) (sc : ScoredChunk)
    (hne : hits ≠ [])
    (hsplit : rankedIds hits = pre ++ sc :: rest)
    (hres : ∀ x ∈ pre, vault x.id ≠ none)
    (hmiss : vault sc.id = none)
    (hfit : (pre.map (tokensOf vault numTokens)).sum ≤ max_tokens) :
    get_chunks_from_hits vault numTokens hits max_tokens = .error sc.id := by
  unfold get_chunks_from_hits
  rw [if_neg hne, hsplit]
  exact assemble_error vault numTokens sc rest hmiss pre 0 max_tokens hres
    (by simpa using hfit)

/-- Witness for the amended C3: B is missing from the vault and A, ranked
before it, fits the budget, so the call errors on B. -/
theorem missing_id_reached_error_witness :
    get_chunks_from_hits
      (fun cid => if cid = "A" then some (⟨"A.md", "chunk", "A.md", "small"⟩ : VaultEntry)
        else none)
      (fun _ => 3) [⟨"A", 0⟩, ⟨"B", 1⟩] 10 = .error "B" :=
  missing_id_reached_error
    (fun cid => if cid = "A" then some (⟨"A.md", "chunk", "A.md", "small"⟩ : VaultEntry)
      else none)
    (fun _ => 3) [⟨"A", 0⟩, ⟨"B", 1⟩] 10
    [⟨"A", 10⟩] [] ⟨"B", 9⟩ (by decide) (by decide) (by decide) (by decide) (by decide)

/-- C4 (divergence witness). On an empty hit list `pd.DataFrame([])` has no
`rank` column, so `get_chunks_from_hits` raises `KeyError: 'rank'` instead
of returning an empty context list. -/
theorem empty_hits_keyerror :
    get_chunks_from_hits (fun _ => none) (fun _ => 0) [] 3200 = .error "rank" := rfl

/-- Witness for C1 at the spec's concrete scenario. -/
theorem get_chunks_from_hits_prefix_witness :
    ∃ k,
      get_chunks_from_hits exVault exTok exHits 100
        = .ok (((rankedIds exHits).take k).map (ctxOf exVault)) ∧
      (((rankedIds exHits).take k).map (tokensOf exVault exTok)).sum ≤ 100 ∧
      ∀ j, j ≤ (rankedIds exHits).length →
        (((rankedIds exHits).take j).map (tokensOf exVault exTok)).sum ≤ 100 →
        j ≤ k :=
  get_chunks_from_hits_prefix exVault exTok exHits 100 (by decide) (by decide)


theorem argsortIdx_perm (sims : List Int) :
    (argsortIdx sims).Perm (List.range sims.length) :=
  List.perm_insertionSort (simRel sims) (List.range sims.length)

theorem mem_argsortIdx (sims : List Int) (i : Nat) (h : i ∈ argsortIdx sims) :
    i < sims.length :=
  List.mem_range.mp ((argsortIdx_perm sims).mem_iff.mp h)

theorem argsortIdx_nodup (sims : List Int) : (argsortIdx sims).Nodup :=
  ((argsortIdx_perm sims).nodup_iff).mpr (List.nodup_range _)

theorem argsortIdx_length (sims : List Int) : (argsortIdx sims).length = sims.length := by
  rw [(argsortIdx_perm sims).length_eq, List.length_range]

theorem lastN_sublist (l : List α) (n : Nat) : List.Sublist (lastN l n) l := by
  unfold lastN
  split
  · exact List.Sublist.refl l
  · exact List.drop_sublist _ l

theorem mem_query_semantic (sims : List Int) (n i : Nat)
    (h : i ∈ query_semantic sims n) : i < sims.length := by
  unfold query_semantic at h
  rw [List.mem_reverse] at h
  exact mem_argsortIdx sims i ((lastN_sublist (argsortIdx sims) n).subset h)

/-- Counterexample to C6 as stated: with `n_results = 0` the Python slice
`argsort(cos_sims)[-0:]` selects the whole array, so all rows come back
instead of `min(0, rows) = 0` of them. -/
theorem query_semantic_zero_counterexample :
    query_semantic [3, 7] 0 = [1, 0] ∧
    (query_semantic [3, 7] 0).length ≠ min 0 ([3, 7] : List Int).length := by
  constructor
  · decide
  · decide

/-- C6 (amended to `n_results ≥ 1`). `query_semantic` returns
`min n_results rows` row indices of the similarity vector, ordered
best-first by non-increasing similarity. -/
theorem query_semantic_topk (sims : List Int) (n : Nat) (hn : 1 ≤ n) :
    (query_semantic sims n).length = min n sims.length ∧
    (∀ i ∈ query_semantic sims n, i < sims.length) ∧
    ((query_semantic sims n).map (fun i => sims.getD i 0)).Pairwise (fun a b => b ≤ a) := by
  refine ⟨?_, fun i hi => mem_query_semantic sims n i hi, ?_⟩
  · unfold query_semantic lastN
    rw [List.length_reverse, if_neg (by omega : ¬ n = 0), List.length_drop,
      argsortIdx_length]
    omega
  · unfold query_semantic
    rw [List.map_reverse, List.pairwise_reverse]
    rw [List.pairwise_map]
    have hsorted : (argsortIdx sims).Pairwise (simRel sims) :=
      List.sorted_insertionSort (simRel sims) (List.range sims.length)
    have hsub : (lastN (argsortIdx sims) n).Pairwise (simRel sims) :=
      List.Pairwise.sublist (lastN_sublist _ _) hsorted
    refine hsub.imp ?_
    intro i j hrel
    rcases hrel with h | ⟨h, _⟩
    · exact le_of_lt h
    · exact le_of_eq h

/-- Witness for the amended C6 at a concrete three-row similarity vector. -/
theorem query_semantic_topk_witness :
    (query_semantic [3, 7, 5] 2).length = min 2 ([3, 7, 5] : List Int).length ∧
    (∀ i ∈ query_semantic [3, 7, 5] 2, i < ([3, 7, 5] : List Int).length) ∧
    ((query_semantic [3, 7, 5] 2).map
      (fun i => ([3, 7, 5] : List Int).getD i 0)).Pairwise (fun a b => b ≤ a) :=
  query_semantic_topk [3, 7, 5] 2 (by decide)

theorem build_embedding_index_from_eq (entries : List (String × VaultEntry)) :
    ∀ k, build_embedding_index_from k entries = List.enumFrom k (chunkKeys entries) := by
  induction entries with
  | nil => intro k; simp [build_embedding_index_from, chunkKeys, chunkEntries]
  | cons p rest ih =>
    intro k
    obtain ⟨cid, d⟩ := p
    by_cases h : d.type == "doc"
    · simp [build_embedding_index_from, chunkKeys, chunkEntries, List.filter_cons, h, ih k]
    · simp [build_embedding_index_from, chunkKeys, chunkEntries, List.filter_cons, h,
        List.enumFrom, ih (k + 1)]

theorem lookupIdx_enumFrom (l : List String) :
    ∀ k i, k ≤ i → i - k < l.length →
      lookupIdx (List.enumFrom k l) i = some (l.getD (i - k) "") := by
  induction l with
  | nil => intro k i _ h; simp at h
  | cons a t ih =>
    intro k i hk hlen
    by_cases hki : k = i
    · subst hki
      simp [lookupIdx, List.enumFrom, List.find?]
    · have hbeq : (k == i) = false := by simpa using hki
      have h1 : k + 1 ≤ i := by omega
      have h2 : i - (k + 1) < t.length := by
        simp only [List.length_cons] at hlen
        omega
      have h3 : i - k = (i - (k + 1)) + 1 := by omega
      have hrec := ih (k + 1) i h1 h2
      simp only [lookupIdx, List.enumFrom, List.find?, hbeq] at hrec ⊢
      rw [hrec, h3, List.getD_cons_succ]

theorem chunkKeys_nodup (vaultL : List (String × VaultEntry))
    (h : (vaultL.map Prod.fst).Nodup) : (chunkKeys vaultL).Nodup :=
  List.Nodup.sublist ((List.filter_sublist vaultL).map Prod.fst) h

theorem parse_semantic_from_ok (eidx : List (Nat × String)) (res : Nat → String) :
    ∀ (indices : List Nat) (rank : Nat),
      (∀ i ∈ indices, lookupIdx eidx i = some (res i)) →
      ∃ hits, parse_semantic_from eidx indices rank = .ok hits ∧
        hits.map Hit.id = indices.map res := by
  intro indices
  induction indices with
  | nil => exact fun _ _ => ⟨[], rfl, rfl⟩
  | cons i rest ih =>
    intro rank h
    obtain ⟨hits, hok, hids⟩ := ih (rank + 1) (fun j hj => h j (List.mem_cons_of_mem i hj))
    refine ⟨⟨res i, rank⟩ :: hits, ?_, ?_⟩
    · simp [parse_semantic_from, h i (List.mem_cons_self i rest), hok]
    · simp [hids]

/-- C10. The row indices returned by `query_semantic` are pairwise
distinct, `build_embedding_index` assigns a distinct chunk id to every row
position, and therefore the semantic hits handed to the fusion step never
repeat a chunk id. -/
theorem semantic_hits_distinct (vaultL : List (String × VaultEntry)) (sims : List Int)
    (n : Nat) (hkeys : (vaultL.map Prod.fst).Nodup)
    (hlen : sims.length = (chunkKeys vaultL).length) :
    (query_semantic sims n).Nodup ∧
    ∃ hits,
      parse_semantic_response (query_semantic sims n) (build_embedding_index vaultL)
        = .ok hits ∧
      (hits.map Hit.id).Nodup := by
  have hnd : (query_semantic sims n).Nodup := by
    unfold query_semantic
    rw [List.nodup_reverse]
    exact List.Nodup.sublist (lastN_sublist _ _) (argsortIdx_nodup sims)
  refine ⟨hnd, ?_⟩
  have hmem : ∀ i ∈ query_semantic sims n, i < (chunkKeys vaultL).length := by
    intro i hi
    rw [← hlen]
    exact mem_query_semantic sims n i hi
  have hlook : ∀ i ∈ query_semantic sims n,
      lookupIdx (build_embedding_index vaultL) i = some ((chunkKeys vaultL).getD i "") := by
    intro i hi
    rw [build_embedding_index, build_embedding_index_from_eq]
    have := lookupIdx_enumFrom (chunkKeys vaultL) 0 i (Nat.zero_le i)
      (by simpa using hmem i hi)
    simpa using this
  obtain ⟨hits, hok, hids⟩ :=
    parse_semantic_from_ok (build_embedding_index vaultL)
      (fun i => (chunkKeys vaultL).getD i "") (query_semantic sims n) 0 hlook
  refine ⟨hits, hok, ?_⟩
  rw [hids]
  refine List.Nodup.map_on ?_ hnd
  intro x hx y hy hxy
  have hxl := hmem x hx
  have hyl := hmem y hy
  rw [List.getD_eq_get _ _ hxl, List.getD_eq_get _ _ hyl] at hxy
  have := ((chunkKeys_nodup vaultL hkeys).get_inj_iff).mp hxy
  exact congrArg Fin.val this

/-- Witness for C10 at a concrete vault with one doc and two chunks. -/
theorem semantic_hits_distinct_witness :
    (query_semantic [3, 7] 10).Nodup ∧
    ∃ hits,
      parse_semantic_response (query_semantic [3, 7] 10)
        (build_embedding_index
          [("a", ⟨"a", "chunk", "a", "t1"⟩), ("b", ⟨"b", "doc", "b", "d"⟩),
           ("c", ⟨"c", "chunk", "c", "t2"⟩)]) = .ok hits ∧
      (hits.map Hit.id).Nodup :=
  semantic_hits_distinct
    [("a", ⟨"a", "chunk", "a", "t1"⟩), ("b", ⟨"b", "doc", "b", "d"⟩),
     ("c", ⟨"c", "chunk", "c", "t2"⟩)]
    [3, 7] 10 (by decide) (by decide)

theorem build_embedding_array_from_map {E : Type} (f : String → E) (bs : Nat) :
    ∀ (entries : List (String × VaultEntry)) (batch : List String),
      build_embedding_array_from (fun b => b.map f) bs entries batch batch.length
        = batch.map f ++ (chunkEntries entries).map (fun p => f (processText p.2.chunk)) := by
  intro entries
  induction entries with
  | nil =>
    intro batch
    cases batch with
    | nil => simp [build_embedding_array_from, chunkEntries]
    | cons b bs2 => simp [build_embedding_array_from, chunkEntries]
  | cons p rest ih =>
    intro batch
    obtain ⟨cid, d⟩ := p
    by_cases h : d.type == "doc"
    · simp [build_embedding_array_from, h, chunkEntries, List.filter_cons, ih batch,
        chunkEntries]
    · by_cases hfl : (batch.length + 1) % bs == 0
      · have h0 := ih []
        simp only [List.length_nil] at h0
        simp [build_embedding_array_from, h, hfl, chunkEntries, List.filter_cons, h0]
      · have h2 := ih (batch ++ [processText d.chunk])
        simp only [List.length_append, List.length_cons, List.length_nil] at h2
        simp [build_embedding_array_from, h, hfl, chunkEntries, List.filter_cons, h2]

/-- C7. With an embedder that returns exactly one embedding row per input
text, the embedding array is row-for-row the embeddings of the processed
chunk texts, its row count equals the entry count of the embedding index,
and the id the index stores at row `i` is the id of the chunk whose text
was embedded into row `i`. -/
theorem embedding_array_index_lockstep {E : Type} (vaultL : List (String × VaultEntry))
    (f : String → E) (bs : Nat) (hbs : 0 < bs) (hne : chunkEntries vaultL ≠ []) :
    build_embedding_array vaultL (fun b => b.map f) bs
      = (chunkEntries vaultL).map (fun p => f (processText p.2.chunk)) ∧
    (build_embedding_array vaultL (fun b => b.map f) bs).length
      = (build_embedding_index vaultL).length ∧
    ∀ i (hi : i < (chunkEntries vaultL).length),
      lookupIdx (build_embedding_index vaultL) i
        = some (((chunkEntries vaultL).get ⟨i, hi⟩).1) ∧
      (build_embedding_array vaultL (fun b => b.map f) bs).getD i (f "")
        = f (processText (((chunkEntries vaultL).get ⟨i, hi⟩).2.chunk)) := by
  have harr : build_embedding_array vaultL (fun b => b.map f) bs
      = (chunkEntries vaultL).map (fun p => f (processText p.2.chunk)) := by
    have h0 := build_embedding_array_from_map f bs vaultL []
    simp only [List.length_nil, List.map_nil, List.nil_append] at h0
    exact h0
  have hkeylen : (chunkKeys vaultL).length = (chunkEntries vaultL).length := by
    simp [chunkKeys]
  have hlen : (build_embedding_array vaultL (fun b => b.map f) bs).length
      = (build_embedding_index vaultL).length := by
    rw [harr, build_embedding_index, build_embedding_index_from_eq]
    simp [List.enumFrom_length, hkeylen]
  refine ⟨harr, hlen, ?_⟩
  intro i hi
  constructor
  · rw [build_embedding_index, build_embedding_index_from_eq]
    have hl := lookupIdx_enumFrom (chunkKeys vaultL) 0 i (Nat.zero_le i)
      (by simpa [hkeylen] using hi)
    simp only [Nat.sub_zero] at hl
    rw [hl]
    have : i < (chunkKeys vaultL).length := by omega
    rw [List.getD_eq_getElem _ _ this]
    simp [chunkKeys]
  · rw [harr]
    have hmi : i < ((chunkEntries vaultL).map
        (fun p => f (processText p.2.chunk))).length := by
      simpa using hi
    rw [List.getD_eq_getElem _ _ hmi]
    simp

/-- Witness for C7 at a concrete vault (one doc, two chunks) with the row
type `Nat` and embedder `length ∘ processText`-style map. -/
theorem embedding_array_index_lockstep_witness :
    build_embedding_array
        [("a", ⟨"a", "chunk", "a", "t1"⟩), ("b", ⟨"b", "doc", "b", "d"⟩),
         ("c", ⟨"c", "chunk", "c", "t2"⟩)]
        (fun b => b.map String.length) 4
      = (chunkEntries
          [("a", ⟨"a", "chunk", "a", "t1"⟩), ("b", ⟨"b", "doc", "b", "d"⟩),
           ("c", ⟨"c", "chunk", "c", "t2"⟩)]).map
          (fun p => String.length (processText p.2.chunk)) ∧
    (build_embedding_array
        [("a", ⟨"a", "chunk", "a", "t1"⟩), ("b", ⟨"b", "doc", "b", "d"⟩),
         ("c", ⟨"c", "chunk", "c", "t2"⟩)]
        (fun b => b.map String.length) 4).length
      = (build_embedding_index
          [("a", ⟨"a", "chunk", "a", "t1"⟩), ("b", ⟨"b", "doc", "b", "d"⟩),
           ("c", ⟨"c", "chunk", "c", "t2"⟩)]).length ∧
    lookupIdx (build_embedding_index
          [("a", ⟨"a", "chunk", "a", "t1"⟩), ("b", ⟨"b", "doc", "b", "d"⟩),
           ("c", ⟨"c", "chunk", "c", "t2"⟩)]) 1 = some "c" :=
  ⟨(embedding_array_index_lockstep
      [("a", ⟨"a", "chunk", "a", "t1"⟩), ("b", ⟨"b", "doc", "b", "d"⟩),
       ("c", ⟨"c", "chunk", "c", "t2"⟩)]
      String.length 4 (by decide) (by decide)).1,
   (embedding_array_index_lockstep
      [("a", ⟨"a", "chunk", "a", "t1"⟩), ("b", ⟨"b", "doc", "b", "d"⟩),
       ("c", ⟨"c", "chunk", "c", "t2"⟩)]
      String.length 4 (by decide) (by decide)).2.1,
   ((embedding_array_index_lockstep
      [("a", ⟨"a", "chunk", "a", "t1"⟩), ("b", ⟨"b", "doc", "b", "d"⟩),
       ("c", ⟨"c", "chunk", "c", "t2"⟩)]
      String.length 4 (by decide) (by decide)).2.2 1 (by decide)).1⟩

/-- C8 (divergence witness). The in-loop flush keeps an accumulated chunk
when it has at least `min_chunk_lines` lines, but the final flush keeps the
last chunk only when it has STRICTLY more: a document whose last
accumulated chunk has exactly 3 lines loses it, while the identical chunk
is kept when it is interior. -/
theorem chunk_min_lines_boundary :
    chunk_doc_to_dict ["- a\n", "x\n", "y\n"] 3 = [] ∧
    chunk_doc_to_dict ["- a\n", "x\n", "y\n", "- b\n", "c\n", "d\n", "e\n"] 3
      = [["- a\n", "x\n", "y\n"], ["- b\n", "c\n", "d\n", "e\n"]] := by
  constructor
  · decide
  · decide

/-- Counterexample to C9 as stated: a six-line file passes the
minimum-line filter of `get_file_paths`, yet yields no retained chunk, so
`create_vault_dict` adds NO whole-document record for it (the code only
adds docs with chunks). -/
theorem zero_chunk_doc_omitted :
    get_file_paths_keep ["\n", "\n", "\n", "\n", "\n", "\n"] 5 = true ∧
    chunk_doc_to_dict ["\n", "\n", "\n", "\n", "\n", "\n"] 3 = [] ∧
    create_vault_dict [("e.md", ["\n", "\n", "\n", "\n", "\n", "\n"])] = [] := by
  refine ⟨by decide, by decide, by decide⟩

/-- Every vault entry of type `doc` is keyed by one of the source
filenames. -/
theorem create_vault_doc_keys (docs : List (String × List String)) :
    ∀ q ∈ create_vault_dict docs, q.2.type = "doc" → q.1 ∈ docs.map Prod.fst := by
  induction docs with
  | nil => intro q hq _; simp [create_vault_dict] at hq
  | cons d rest ih =>
    obtain ⟨gn, glines⟩ := d
    intro q hq htype
    by_cases hcs : chunk_doc_to_dict glines 3 = []
    · rw [show create_vault_dict ((gn, glines) :: rest) = create_vault_dict rest from by
        simp [create_vault_dict, hcs]] at hq
      simpa using Or.inr (ih q hq htype)
    · simp only [create_vault_dict] at hq
      rw [if_neg hcs] at hq
      rcases List.mem_append.mp hq with h1 | h1
      · rcases List.mem_cons.mp h1 with h2 | h2
        · subst h2; simp
        · obtain ⟨p, _, hp⟩ := List.mem_map.mp h2
          rw [← hp] at htype
          simp at htype
      · simpa using Or.inr (ih q h1 htype)

/-- C9 (amended). A source document that yields at least one retained
chunk contributes exactly one whole-document record (type `doc`, keyed by
its path) and one `chunk` record per retained chunk (keyed
`<path>-<sequence>`); documents whose chunking yields nothing are omitted
from the vault entirely. -/
theorem vault_doc_record_per_chunked_doc (docs : List (String × List String))
    (fn : String) (lines : List String)
    (hmem : (fn, lines) ∈ docs)
    (hnodup : (docs.map Prod.fst).Nodup)
    (hne : chunk_doc_to_dict lines 3 ≠ []) :
    (create_vault_dict docs).countP (fun p => p.1 == fn && p.2.type == "doc") = 1 ∧
    (fn, (⟨fn, "doc", fn, String.join lines⟩ : VaultEntry)) ∈ create_vault_dict docs ∧
    ∀ i (hi : i < (chunk_doc_to_dict lines 3).length),
      (fn ++ "-" ++ toString i,
        (⟨fn, "chunk", fn,
          String.join ((chunk_doc_to_dict lines 3).get ⟨i, hi⟩)⟩ : VaultEntry))
        ∈ create_vault_dict docs := by
  revert hmem hnodup
  induction docs with
  | nil => intro hmem _; cases hmem
  | cons d rest ih =>
    obtain ⟨gn, glines⟩ := d
    intro hmem hnodup
    have hnodup2 : (rest.map Prod.fst).Nodup := by
      simp only [List.map_cons, List.nodup_cons] at hnodup
      exact hnodup.2
    have hgnot : gn ∉ rest.map Prod.fst := by
      simp only [List.map_cons, List.nodup_cons] at hnodup
      exact hnodup.1
    rcases List.mem_cons.mp hmem with heq | hmem2
    · injection heq with h1 h2
      subst h1
      subst h2
      have hvd : create_vault_dict ((fn, lines) :: rest)
          = ((fn, (⟨fn, "doc", fn, String.join lines⟩ : VaultEntry)) ::
              (chunk_doc_to_dict lines 3).enum.map (fun p =>
                (fn ++ "-" ++ toString p.1,
                  (⟨fn, "chunk", fn, String.join p.2⟩ : VaultEntry)))) ++
            create_vault_dict rest := by
        simp [create_vault_dict, hne]
      refine ⟨?_, ?_, ?_⟩
      · rw [hvd, List.countP_append, List.countP_cons]
        have hchunks : ((chunk_doc_to_dict lines 3).enum.map (fun p =>
            (fn ++ "-" ++ toString p.1,
              (⟨fn, "chunk", fn, String.join p.2⟩ : VaultEntry)))).countP
            (fun p => p.1 == fn && p.2.type == "doc") = 0 := by
          rw [List.countP_eq_zero]
          intro a ha
          obtain ⟨p, _, hp⟩ := List.mem_map.mp ha
          rw [← hp]
          simp
        have hrest : (create_vault_dict rest).countP
            (fun p => p.1 == fn && p.2.type == "doc") = 0 := by
          rw [List.countP_eq_zero]
          intro q hq hp
          rw [Bool.and_eq_true, beq_iff_eq, beq_iff_eq] at hp
          have := create_vault_doc_keys rest q hq hp.2
          rw [hp.1] at this
          exact hgnot this
        rw [hchunks, hrest]
        simp
      · rw [hvd]
        exact List.mem_append_left _ (List.mem_cons_self _ _)
      · intro i hi
        rw [hvd]
        apply List.mem_append_left
        apply List.mem_cons_of_mem
        refine List.mem_map.mpr ⟨(i, (chunk_doc_to_dict lines 3).get ⟨i, hi⟩), ?_, rfl⟩
        have hi2 : i < (chunk_doc_to_dict lines 3).enum.length := by
          simpa [List.enum_length] using hi
        have hmem3 := List.getElem_mem hi2
        rw [List.getElem_enum] at hmem3
        simpa using hmem3
    · have hfn : fn ∈ rest.map Prod.fst := List.mem_map.mpr ⟨(fn, lines), hmem2, rfl⟩
      have hgn : gn ≠ fn := fun h => hgnot (h ▸ hfn)
      obtain ⟨ih1, ih2, ih3⟩ := ih hmem2 hnodup2
      by_cases hcs : chunk_doc_to_dict glines 3 = []
      · have hvd : create_vault_dict ((gn, glines) :: rest) = create_vault_dict rest := by
          simp [create_vault_dict, hcs]
        rw [hvd]
        exact ⟨ih1, ih2, ih3⟩
      · have hvd : create_vault_dict ((gn, glines) :: rest)
            = ((gn, (⟨gn, "doc", gn, String.join glines⟩ : VaultEntry)) ::
                (chunk_doc_to_dict glines 3).enum.map (fun p =>
                  (gn ++ "-" ++ toString p.1,
                    (⟨gn, "chunk", gn, String.join p.2⟩ : VaultEntry)))) ++
              create_vault_dict rest := by
          simp [create_vault_dict, hcs]
        rw [hvd]
        refine ⟨?_, List.mem_append_right _ ih2, fun i hi => List.mem_append_right _ (ih3 i hi)⟩
        rw [List.countP_append, List.countP_cons]
        have hchunks : ((chunk_doc_to_dict glines 3).enum.map (fun p =>
            (gn ++ "-" ++ toString p.1,
              (⟨gn, "chunk", gn, String.join p.2⟩ : VaultEntry)))).countP
            (fun p => p.1 == fn && p.2.type == "doc") = 0 := by
          rw [List.countP_eq_zero]
          intro a ha
          obtain ⟨p, _, hp⟩ := List.mem_map.mp ha
          rw [← hp]
          simp
        rw [hchunks, ih1]
        simp [hgn]

/-- Witness for the amended C9: a two-file corpus where both files chunk
successfully; the first file gets exactly one doc record, its doc record
and its first chunk record are present. -/
theorem vault_doc_record_per_chunked_doc_witness :
    (create_vault_dict
        [("a.md", ["- a\n", "x\n", "y\n", "- b\n", "c\n", "d\n", "e\n"]),
         ("b.md", ["- p\n", "q\n", "r\n", "s\n"])]).countP
      (fun p => p.1 == "a.md" && p.2.type == "doc") = 1 ∧
    ("a.md", (⟨"a.md", "doc", "a.md",
        String.join ["- a\n", "x\n", "y\n", "- b\n", "c\n", "d\n", "e\n"]⟩ : VaultEntry))
      ∈ create_vault_dict
        [("a.md", ["- a\n", "x\n", "y\n", "- b\n", "c\n", "d\n", "e\n"]),
         ("b.md", ["- p\n", "q\n", "r\n", "s\n"])] :=
  ⟨(vault_doc_record_per_chunked_doc
      [("a.md", ["- a\n", "x\n", "y\n", "- b\n", "c\n", "d\n", "e\n"]),
       ("b.md", ["- p\n", "q\n", "r\n", "s\n"])]
      "a.md" ["- a\n", "x\n", "y\n", "- b\n", "c\n", "d\n", "e\n"]
      (by decide) (by decide) (by decide)).1,
   (vault_doc_record_per_chunked_doc
      [("a.md", ["- a\n", "x\n", "y\n", "- b\n", "c\n", "d\n", "e\n"]),
       ("b.md", ["- p\n", "q\n", "r\n", "s\n"])]
      "a.md" ["- a\n", "x\n", "y\n", "- b\n", "c\n", "d\n", "e\n"]
      (by decide) (by decide) (by decide)).2.1⟩
